import Mathlib

/- A shallow embedding of the tange-collection library (tange-collection/src/lib.rs
and tange-collection/src/interfaces.rs).  A Collection over element type A is
modelled as the list of its partitions, each partition being the ordered list of
its elements; a Deferred node is modelled by the value it resolves to, so
batch_apply is List.map over the partitions. -/

namespace TangeSpec

universe u v w

/-- Modelled from the spec: the external tange crate (the repository's core
crate, whose sources are not under verification here) supplies tree_reduce, a
balanced pairwise (tree) combine of a list of deferred values, absent exactly
on the empty list.  One pass combines adjacent pairs. -/
def pairwisePass {α : Type u} (f : α → α → α) : List α → List α
  | [] => []
  | [x] => [x]
  | x :: y :: rest => f x y :: pairwisePass f rest

/-- Modelled from the spec: repeated pairwise passes; the fuel argument bounds
the number of passes and is always instantiated with the list length, which
suffices because each pass halves the length. -/
def treeReduceAux {α : Type u} (f : α → α → α) : Nat → List α → Option α
  | _, [] => none
  | _, [x] => some x
  | 0, _ :: _ :: _ => none
  | fuel + 1, x :: y :: rest => treeReduceAux f fuel (pairwisePass f (x :: y :: rest))

/-- Modelled from the spec: tange::deferred::tree_reduce — pairwise-combine a
list of nodes via a balanced binary tree using the supplied combining
function; yields nothing on an empty list. -/
def treeReduce {α : Type u} (f : α → α → α) (xs : List α) : Option α :=
  treeReduceAux f xs.length xs

theorem pairwisePass_length {α : Type u} (f : α → α → α) :
    ∀ l : List α, (pairwisePass f l).length = (l.length + 1) / 2
  | [] => by simp [pairwisePass]
  | [_] => by simp [pairwisePass]
  | _ :: _ :: rest => by
    simp only [pairwisePass, List.length_cons, pairwisePass_length f rest]
    omega

theorem foldl_pairwisePass {α : Type u} {f : α → α → α}
    (hf : ∀ a b c, f (f a b) c = f a (f b c)) :
    ∀ (l : List α) (a : α), (pairwisePass f l).foldl f a = l.foldl f a
  | [], _ => rfl
  | [_], _ => rfl
  | x :: y :: rest, a => by
    show (pairwisePass f rest).foldl f (f a (f x y)) = rest.foldl f (f (f a x) y)
    rw [foldl_pairwisePass hf rest, hf]

theorem treeReduceAux_eq {α : Type u} {f : α → α → α}
    (hf : ∀ a b c, f (f a b) c = f a (f b c)) :
    ∀ (fuel : Nat) (xs : List α), xs.length ≤ fuel + 1 →
      treeReduceAux f fuel xs =
        (match xs with | [] => none | x :: rest => some (rest.foldl f x))
  | _, [], _ => by simp [treeReduceAux]
  | _, [_], _ => by simp [treeReduceAux]
  | 0, _ :: _ :: _, h => by simp at h
  | fuel + 1, x :: y :: rest, h => by
    have hlen : (pairwisePass f (x :: y :: rest)).length ≤ fuel + 1 := by
      rw [pairwisePass_length]
      simp only [List.length_cons] at h ⊢
      omega
    have hstep : treeReduceAux f (fuel + 1) (x :: y :: rest) =
        treeReduceAux f fuel (pairwisePass f (x :: y :: rest)) := rfl
    rw [hstep, treeReduceAux_eq hf fuel _ hlen]
    show some ((pairwisePass f rest).foldl f (f x y)) = some (rest.foldl f (f x y))
    rw [foldl_pairwisePass hf]

theorem treeReduce_cons {α : Type u} {f : α → α → α}
    (hf : ∀ a b c, f (f a b) c = f a (f b c)) (x : α) (rest : List α) :
    treeReduce f (x :: rest) = some (rest.foldl f x) :=
  treeReduceAux_eq hf _ _ (by simp)

theorem treeReduceAux_none_iff {α : Type u} (f : α → α → α) :
    ∀ (fuel : Nat) (xs : List α), xs.length ≤ fuel + 1 →
      (treeReduceAux f fuel xs = none ↔ xs = [])
  | _, [], _ => by simp [treeReduceAux]
  | _, [x], _ => by simp [treeReduceAux]
  | 0, _ :: _ :: _, h => by simp at h
  | fuel + 1, x :: y :: rest, h => by
    have hlen : (pairwisePass f (x :: y :: rest)).length ≤ fuel + 1 := by
      rw [pairwisePass_length]
      simp only [List.length_cons] at h ⊢
      omega
    have hstep : treeReduceAux f (fuel + 1) (x :: y :: rest) =
        treeReduceAux f fuel (pairwisePass f (x :: y :: rest)) := rfl
    rw [hstep, treeReduceAux_none_iff f fuel _ hlen]
    simp [pairwisePass]

theorem treeReduce_none_iff {α : Type u} (f : α → α → α) (xs : List α) :
    treeReduce f xs = none ↔ xs = [] :=
  treeReduceAux_none_iff f _ _ (by simp)

/- ### The Collection operations (tange-collection/src/lib.rs) -/

/-- Collection::from_vec: a single partition holding the given elements. -/
def liftOp {A : Type u} (vs : List A) : List (List A) := [vs]

/-- Collection::n_partitions. -/
def nPartitions {A : Type u} (c : List (List A)) : Nat := c.length

/-- Collection::concat: self's partition handles followed by the other's. -/
def concatOp {A : Type u} (c other : List (List A)) : List (List A) := c ++ other

/-- Collection::map: per partition, push f of every element in order. -/
def mapOp {A : Type u} {B : Type v} (f : A → B) (c : List (List A)) : List (List B) :=
  c.map (fun vs => vs.map f)

/-- Collection::filter: per partition, keep the elements passing f, in order. -/
def filterOp {A : Type u} (f : A → Bool) (c : List (List A)) : List (List A) :=
  c.map (fun vs => vs.filter f)

/-- Collection::run: tree-reduce concatenation of all partitions, then execute
under the scheduler; absent (None) when there are no partitions. -/
def runOp {A : Type u} (c : List (List A)) : Option (List A) :=
  treeReduce (fun x y => x ++ y) c

theorem foldl_append_eq_flatten {A : Type u} :
    ∀ (l : List (List A)) (a : List A),
      l.foldl (fun x y => x ++ y) a = a ++ l.flatten
  | [], a => by simp
  | q :: rest, a => by
    show rest.foldl (fun x y => x ++ y) (a ++ q) = a ++ (q :: rest).flatten
    rw [foldl_append_eq_flatten rest (a ++ q)]
    simp

theorem runOp_eq_flatten {A : Type u} (c : List (List A)) (hc : c ≠ []) :
    runOp c = some c.flatten := by
  match c, hc with
  | p :: rest, _ =>
    rw [runOp, treeReduce_cons (fun a b c => List.append_assoc a b c) p rest]
    rw [foldl_append_eq_flatten]
    simp

/-- C3: lifting a finite sequence gives a Collection with exactly one
partition, and running it returns the sequence unchanged. -/
theorem lift_run_id {A : Type u} (v : List A) :
    runOp (liftOp v) = some v ∧ (liftOp v).length = 1 :=
  ⟨rfl, rfl⟩

/-- C9: run is absent exactly on a Collection with zero partitions; with at
least one partition it returns the tree-reduce concatenation of all
partitions, which is their flattening in order. -/
theorem run_none_iff {A : Type u} (c : List (List A)) :
    (runOp c = none ↔ c = []) ∧ (c ≠ [] → runOp c = some c.flatten) :=
  ⟨treeReduce_none_iff _ c, runOp_eq_flatten c⟩

theorem run_none_iff_witness :
    (([[1], [2]] : List (List Nat)) ≠ [] ∧
      runOp ([[1], [2]] : List (List Nat)) = some [1, 2]) ∧
    (runOp ([] : List (List Nat)) = none) :=
  ⟨⟨by decide, (run_none_iff [[1], [2]]).2 (by decide)⟩, (run_none_iff ([] : List (List Nat))).1.mpr rfl⟩

/-- C2: materializing map f equals f mapped over the materialization of the
original Collection; in particular, for a non-empty Collection it is exactly
the elementwise application of f to the original full sequence in order,
however the elements were split into partitions. -/
theorem map_run {A : Type u} {B : Type v} (f : A → B) (c : List (List A)) :
    runOp (mapOp f c) = (runOp c).map (List.map f) ∧
    (c ≠ [] → runOp (mapOp f c) = some (c.flatten.map f)) := by
  have hmain : ∀ c : List (List A), c ≠ [] → runOp (mapOp f c) = some (c.flatten.map f) := by
    intro c hc
    have hne : mapOp f c ≠ [] := by
      intro h
      exact hc (List.map_eq_nil_iff.mp h)
    rw [runOp_eq_flatten _ hne, mapOp]
    simp
  refine ⟨?_, hmain c⟩
  match c with
  | [] => rfl
  | p :: rest =>
    rw [hmain (p :: rest) (by simp), runOp_eq_flatten (p :: rest) (by simp)]
    rfl

theorem map_run_witness :
    (runOp (mapOp (fun x => x * 2) ([[1, 2], [3, 4]] : List (List Nat))) =
      (runOp [[1, 2], [3, 4]]).map (List.map (fun x => x * 2))) ∧
    (([[1, 2], [3, 4]] : List (List Nat)) ≠ [] ∧
      runOp (mapOp (fun x => x * 2) ([[1, 2], [3, 4]] : List (List Nat))) =
        some [2, 4, 6, 8]) :=
  ⟨(map_run (fun x => x * 2) [[1, 2], [3, 4]]).1,
    by decide,
    (map_run (fun x => x * 2) [[1, 2], [3, 4]]).2 (by decide)⟩

/-- C6: concat appends the partition handle lists verbatim, so the partition
count adds, and the multiset of materialized elements is the union of the two
operands' materialized multisets. -/
theorem concat_props {A : Type u} (a b : List (List A)) :
    (concatOp a b).length = a.length + b.length ∧
    concatOp a b = a ++ b ∧
    (Multiset.ofList (concatOp a b).flatten =
      Multiset.ofList a.flatten + Multiset.ofList b.flatten) := by
  refine ⟨by simp [concatOp], rfl, ?_⟩
  simp [concatOp]

/-- Collection::count: per-partition lengths, tree-reduce summed into a
single-element single partition; the unwrap of the absent sum on a
zero-partition Collection is modelled as None. -/
def countOp {A : Type u} (c : List (List A)) : Option (List (List Nat)) :=
  (treeReduce (fun x y => x + y) (c.map List.length)).map (fun x => [[x]])

theorem foldl_add_eq_sum : ∀ (l : List Nat) (a : Nat),
    l.foldl (fun x y => x + y) a = a + l.sum
  | [], a => by simp
  | q :: rest, a => by
    show rest.foldl (fun x y => x + y) (a + q) = a + (q :: rest).sum
    rw [foldl_add_eq_sum rest (a + q)]
    simp only [List.sum_cons]
    omega

theorem countOp_eq {A : Type u} (c : List (List A)) (hc : c ≠ []) :
    countOp c = some [[c.flatten.length]] := by
  match c, hc with
  | p :: rest, _ =>
    rw [countOp, List.map_cons,
      treeReduce_cons (fun a b c => Nat.add_assoc a b c) _ _,
      foldl_add_eq_sum]
    simp

theorem getD_map_nil {A : Type u} {B : Type v} (g : List A → List B) (hg : g [] = []) :
    ∀ (c : List (List A)) (i : Nat), (c.map g).getD i [] = g (c.getD i [])
  | [], i => by simp [hg]
  | q :: rest, 0 => by simp
  | q :: rest, i + 1 => by
    show (rest.map g).getD i [] = g (rest.getD i [])
    exact getD_map_nil g hg rest i

theorem flatten_map_filter {A : Type u} (p : A → Bool) :
    ∀ c : List (List A), (c.map (fun vs => vs.filter p)).flatten = c.flatten.filter p
  | [] => rfl
  | q :: rest => by
    simp only [List.map_cons, List.flatten_cons, flatten_map_filter p rest]
    simp

/-- C4: filter keeps the partition count, keeps within-partition relative
order of survivors (each output partition is the filter of the input one),
and counting after filtering yields the number of elements satisfying the
predicate. -/
theorem filter_count {A : Type u} (p : A → Bool) (c : List (List A)) :
    (filterOp p c).length = c.length ∧
    (∀ i : Nat, (filterOp p c).getD i [] = (c.getD i []).filter p) ∧
    (c ≠ [] → countOp (filterOp p c) = some [[c.flatten.countP p]]) := by
  refine ⟨by simp [filterOp], getD_map_nil _ rfl c, fun hc => ?_⟩
  have hne : filterOp p c ≠ [] := by
    intro h
    exact hc (List.map_eq_nil_iff.mp h)
  rw [countOp_eq _ hne, filterOp, flatten_map_filter]
  rw [List.countP_eq_length_filter]

theorem filter_count_witness :
    ((filterOp (fun x => x % 2 == 0) ([[1, 2], [3, 4, 6]] : List (List Nat))).length =
      ([[1, 2], [3, 4, 6]] : List (List Nat)).length ∧
     (∀ i : Nat, (filterOp (fun x => x % 2 == 0) ([[1, 2], [3, 4, 6]] : List (List Nat))).getD i [] =
       (([[1, 2], [3, 4, 6]] : List (List Nat)).getD i []).filter (fun x => x % 2 == 0)) ∧
     (([[1, 2], [3, 4, 6]] : List (List Nat)) ≠ [] →
       countOp (filterOp (fun x => x % 2 == 0) ([[1, 2], [3, 4, 6]] : List (List Nat))) =
         some [[([[1, 2], [3, 4, 6]] : List (List Nat)).flatten.countP (fun x => x % 2 == 0)]])) ∧
    ([[1, 2], [3, 4, 6]] : List (List Nat)) ≠ [] ∧
    countOp (filterOp (fun x => x % 2 == 0) ([[1, 2], [3, 4, 6]] : List (List Nat))) = some [[3]] :=
  ⟨filter_count (fun x => x % 2 == 0) [[1, 2], [3, 4, 6]], by decide,
    (filter_count (fun x => x % 2 == 0) [[1, 2], [3, 4, 6]]).2.2 (by decide)⟩

/- ### Collection::partition -/

/-- One step of partition stage 1: push x onto bucket p of the bucket vector. -/
def pushBucket {A : Type u} (parts : List (List A)) (p : Nat) (x : A) : List (List A) :=
  parts.set p (parts.getD p [] ++ [x])

/-- Partition stage 1 on one source partition: start from n empty buckets and
push every element onto bucket f(local index, element) mod n, in order. -/
def localBuckets {A : Type u} (n : Nat) (f : Nat → A → Nat) (vs : List A) : List (List A) :=
  vs.enum.foldl (fun parts ix => pushBucket parts (f ix.1 ix.2 % n) ix.2) (List.replicate n [])

/-- Collection::partition: local bucketing per source partition, then for each
bucket index in 0..n the per-source buckets are tree-reduce concatenated; an
absent tree reduce (which happens only with zero source partitions) is
skipped. -/
def partitionOp {A : Type u} (n : Nat) (f : Nat → A → Nat) (c : List (List A)) : List (List A) :=
  let stage1 := c.map (localBuckets n f)
  (List.range n).filterMap (fun idx =>
    treeReduce (fun x y => x ++ y) (stage1.map (fun parts => parts.getD idx [])))

theorem pushBucket_length {A : Type u} (parts : List (List A)) (p : Nat) (x : A) :
    (pushBucket parts p x).length = parts.length := by
  simp [pushBucket]

theorem pushBucket_getD {A : Type u} (parts : List (List A)) (p : Nat) (x : A)
    (hp : p < parts.length) (j : Nat) :
    (pushBucket parts p x).getD j [] =
      if p = j then parts.getD j [] ++ [x] else parts.getD j [] := by
  rcases eq_or_ne p j with h | h
  · subst h
    simp [pushBucket, List.getD_eq_getElem?_getD, List.getElem?_set, hp]
  · simp [pushBucket, List.getD_eq_getElem?_getD, List.getElem?_set, h]

theorem bucketFold_length {A : Type u} (n : Nat) (f : Nat → A → Nat) :
    ∀ (l : List (Nat × A)) (parts : List (List A)),
      (l.foldl (fun parts ix => pushBucket parts (f ix.1 ix.2 % n) ix.2) parts).length =
        parts.length
  | [], _ => rfl
  | ix :: rest, parts => by
    simp only [List.foldl_cons]
    rw [bucketFold_length n f rest, pushBucket_length]

theorem bucketFold_getD {A : Type u} (n : Nat) (f : Nat → A → Nat) (hn : 0 < n) :
    ∀ (l : List (Nat × A)) (parts : List (List A)), parts.length = n → ∀ j : Nat,
      (l.foldl (fun parts ix => pushBucket parts (f ix.1 ix.2 % n) ix.2) parts).getD j [] =
        parts.getD j [] ++ (l.filter (fun ix => f ix.1 ix.2 % n == j)).map Prod.snd
  | [], _, _, _ => by simp
  | ix :: rest, parts, hlen, j => by
    have hp : f ix.1 ix.2 % n < parts.length := by
      rw [hlen]
      exact Nat.mod_lt _ hn
    simp only [List.foldl_cons]
    rw [bucketFold_getD n f hn rest (pushBucket parts (f ix.1 ix.2 % n) ix.2)
      (by rw [pushBucket_length]; exact hlen) j]
    rw [pushBucket_getD parts _ ix.2 hp j]
    rcases eq_or_ne (f ix.1 ix.2 % n) j with h | h
    · rw [if_pos h]
      simp [List.filter_cons, h]
    · rw [if_neg h]
      simp [List.filter_cons, h]

theorem localBuckets_length {A : Type u} (n : Nat) (f : Nat → A → Nat) (vs : List A) :
    (localBuckets n f vs).length = n := by
  rw [localBuckets, bucketFold_length]
  simp

theorem replicate_getD {A : Type u} (n j : Nat) :
    (List.replicate n ([] : List A)).getD j [] = [] := by
  simp only [List.getD_eq_getElem?_getD, List.getElem?_replicate]
  split <;> rfl

theorem localBuckets_getD {A : Type u} (n : Nat) (f : Nat → A → Nat) (hn : 0 < n)
    (vs : List A) (j : Nat) :
    (localBuckets n f vs).getD j [] =
      (vs.enum.filter (fun ix => f ix.1 ix.2 % n == j)).map Prod.snd := by
  rw [localBuckets, bucketFold_getD n f hn _ _ (by simp) j, replicate_getD]
  simp

theorem filterMap_eq_map_of_some {α : Type u} {β : Type v} (g : α → Option β) (h : α → β) :
    ∀ l : List α, (∀ x ∈ l, g x = some (h x)) → l.filterMap g = l.map h
  | [], _ => rfl
  | x :: rest, hl => by
    simp only [List.filterMap_cons, hl x (by simp), List.map_cons,
      filterMap_eq_map_of_some g h rest (fun y hy => hl y (by simp [hy]))]

theorem partitionOp_eq {A : Type u} (n : Nat) (f : Nat → A → Nat) (c : List (List A))
    (hc : c ≠ []) :
    partitionOp n f c =
      (List.range n).map
        (fun j => (c.map (fun vs => (localBuckets n f vs).getD j [])).flatten) := by
  rw [partitionOp]
  refine filterMap_eq_map_of_some _ _ _ (fun idx _ => ?_)
  have hne : (c.map (localBuckets n f)).map (fun parts => parts.getD idx []) ≠ [] := by
    simp [hc]
  rw [show (c.map (localBuckets n f)).map (fun parts => parts.getD idx []) =
      c.map (fun vs => (localBuckets n f vs).getD idx []) from by
    rw [List.map_map]; rfl]
  exact runOp_eq_flatten _ (by simpa using hc)

theorem getD_map_range {β : Type v} (h : Nat → List β) (n j : Nat) :
    ((List.range n).map h).getD j [] = if j < n then h j else [] := by
  rcases Nat.lt_or_ge j n with hj | hj
  · simp [List.getD_eq_getElem?_getD, List.getElem?_range hj, hj]
  · have hnone : ((List.range n).map h)[j]? = none := by
      apply List.getElem?_eq_none
      simpa using hj
    simp [List.getD_eq_getElem?_getD, hnone, Nat.not_lt.mpr hj]

theorem sum_map_add {β : Type v} (g h : β → Nat) :
    ∀ l : List β, (l.map (fun x => g x + h x)).sum = (l.map g).sum + (l.map h).sum
  | [] => rfl
  | x :: rest => by
    simp only [List.map_cons, List.sum_cons, sum_map_add g h rest]
    omega

theorem sum_map_indicator (m : Nat) :
    ∀ n : Nat, ((List.range n).map (fun j => if m == j then 1 else 0)).sum =
      if m < n then 1 else 0
  | 0 => rfl
  | n + 1 => by
    rw [List.range_succ, List.map_append, List.sum_append, sum_map_indicator m n]
    by_cases h : m = n
    · simp [h]
    · have h2 : ((m == n) : Bool) = false := by simp [h]
      rcases Nat.lt_or_ge m n with h3 | h3
      · simp [h2, h3, Nat.lt_succ_of_lt h3, h]
      · have h4 : ¬m < n := Nat.not_lt.mpr h3
        have h5 : ¬m < n + 1 := by omega
        simp [h2, h4, h5, h]

theorem sum_countP_buckets {β : Type v} (g : β → Nat) (n : Nat) :
    ∀ l : List β, (∀ x ∈ l, g x < n) →
      ((List.range n).map (fun j => l.countP (fun x => g x == j))).sum = l.length
  | [], _ => by simp
  | x :: rest, hl => by
    have hrec := sum_countP_buckets g n rest (fun y hy => hl y (by simp [hy]))
    calc ((List.range n).map (fun j => (x :: rest).countP (fun y => g y == j))).sum
        = ((List.range n).map
            (fun j => rest.countP (fun y => g y == j) + if (g x == j) then 1 else 0)).sum := by
          simp only [List.countP_cons]
      _ = ((List.range n).map (fun j => rest.countP (fun y => g y == j))).sum
            + ((List.range n).map (fun j => if (g x == j) then 1 else 0)).sum :=
          sum_map_add _ _ _
      _ = rest.length + 1 := by
          rw [hrec, sum_map_indicator]
          simp [hl x (by simp)]
      _ = (x :: rest).length := by simp

theorem sum_map_comm {β : Type v} {γ : Type w} (q : β → γ → Nat) :
    ∀ (l1 : List β) (l2 : List γ),
      (l1.map (fun x => (l2.map (q x)).sum)).sum =
        (l2.map (fun y => (l1.map (fun x => q x y)).sum)).sum
  | [], l2 => by simp
  | x :: rest, l2 => by
    simp only [List.map_cons, List.sum_cons, sum_map_comm q rest l2]
    rw [← sum_map_add (fun y => q x y) (fun y => (rest.map (fun z => q z y)).sum) l2]

/-- C1 (amended): with n ≥ 1 and at least one source partition, partition(n, f)
yields exactly n output partitions (hence at most n); output partition j holds,
in source order, precisely the elements whose bucket f(local index, element)
mod n equals j — so every input element lands in exactly that one output
partition; a bucket receiving zero elements yields an empty output partition
that is still present; and the total element count is conserved. -/
theorem partition_props {A : Type u} (n : Nat) (f : Nat → A → Nat) (c : List (List A))
    (hn : 0 < n) (hc : c ≠ []) :
    (partitionOp n f c).length = n ∧
    (∀ j : Nat, (partitionOp n f c).getD j [] =
      (c.map (fun vs =>
        (vs.enum.filter (fun ix => f ix.1 ix.2 % n == j)).map Prod.snd)).flatten) ∧
    (partitionOp n f c).flatten.length = c.flatten.length := by
  refine ⟨by rw [partitionOp_eq n f c hc]; simp, fun j => ?_, ?_⟩
  · rw [partitionOp_eq n f c hc, getD_map_range]
    rcases Nat.lt_or_ge j n with hj | hj
    · rw [if_pos hj]
      simp only [localBuckets_getD n f hn]
    · rw [if_neg (Nat.not_lt.mpr hj)]
      have hfil : ∀ vs : List A,
          (vs.enum.filter (fun ix => f ix.1 ix.2 % n == j)) = [] := by
        intro vs
        refine List.filter_eq_nil_iff.mpr (fun ix _ => ?_)
        have hlt : f ix.1 ix.2 % n < n := Nat.mod_lt _ hn
        simp only [beq_iff_eq]
        omega
      simp [hfil]
  · rw [partitionOp_eq n f c hc]
    rw [List.length_flatten, List.map_map]
    have h1 : ∀ j : Nat,
        (List.length ∘ fun j => (c.map (fun vs => (localBuckets n f vs).getD j [])).flatten) j =
          (c.map (fun vs => vs.enum.countP (fun ix => f ix.1 ix.2 % n == j))).sum := by
      intro j
      show ((c.map (fun vs => (localBuckets n f vs).getD j [])).flatten).length = _
      rw [List.length_flatten, List.map_map]
      refine congrArg List.sum (List.map_congr_left (fun vs _ => ?_))
      show ((localBuckets n f vs).getD j []).length = _
      rw [localBuckets_getD n f hn, List.length_map, ← List.countP_eq_length_filter]
    rw [List.map_congr_left (fun j _ => h1 j)]
    rw [sum_map_comm (fun j vs => vs.enum.countP (fun ix => f ix.1 ix.2 % n == j))
      (List.range n) c]
    rw [List.length_flatten]
    refine congrArg List.sum (List.map_congr_left (fun vs _ => ?_))
    have := sum_countP_buckets (fun ix : Nat × A => f ix.1 ix.2 % n) n vs.enum
      (fun ix _ => Nat.mod_lt _ hn)
    rw [this]
    simp

theorem partition_props_witness :
    ((partitionOp 3 (fun _ x => x) [[(0 : Nat), 1], [4]]).length = 3 ∧
     (∀ j : Nat, (partitionOp 3 (fun _ x => x) [[(0 : Nat), 1], [4]]).getD j [] =
       (([[(0 : Nat), 1], [4]] : List (List Nat)).map (fun vs =>
         (vs.enum.filter (fun ix => (fun _ x => x) ix.1 ix.2 % 3 == j)).map Prod.snd)).flatten) ∧
     (partitionOp 3 (fun _ x => x) [[(0 : Nat), 1], [4]]).flatten.length =
       ([[(0 : Nat), 1], [4]] : List (List Nat)).flatten.length) ∧
    0 < 3 ∧ ([[(0 : Nat), 1], [4]] : List (List Nat)) ≠ [] :=
  ⟨partition_props 3 (fun _ x => x) [[(0 : Nat), 1], [4]] (by decide) (by decide),
    by decide, by decide⟩

/-- C1 counterexample: with one source partition and n = 2, bucket 1 receives
zero elements, yet the output still contains an (empty) partition for it: the
output is [[0], []] with 2 partitions, not [[0]] as the claim's
absent-empty-bucket clause would require. -/
theorem partition_empty_bucket_present :
    partitionOp 2 (fun _ x => x) [[(0 : Nat)]] = [[0], []] ∧
    [] ∈ partitionOp 2 (fun _ x => x) [[(0 : Nat)]] ∧
    (partitionOp 2 (fun _ x => x) [[(0 : Nat)]]).length = 2 := by
  decide

/- ### Collection::sort_by -/

/-- Collection::sort_by: per partition, clone the elements and stable-sort
them ascending by key (Rust sort_by_key), leaving other partitions alone. -/
def sortByOp {A : Type u} {K : Type w} [LinearOrder K] (key : A → K)
    (c : List (List A)) : List (List A) :=
  c.map (fun vs => vs.mergeSort (fun x y => key x ≤ key y))

/-- C7: sort_by keeps the partition count, each output partition is a
permutation of the corresponding input partition and is non-decreasing by
key; and no ordering across partitions is established — there is a Collection
whose per-partition-sorted output is not globally sorted. -/
theorem sortBy_props {A : Type u} {K : Type w} [LinearOrder K] (key : A → K)
    (c : List (List A)) :
    (sortByOp key c).length = c.length ∧
    (∀ i : Nat, ((sortByOp key c).getD i []).Perm (c.getD i [])) ∧
    (∀ i : Nat, ((sortByOp key c).getD i []).Pairwise (fun x y => key x ≤ key y)) ∧
    (∃ d : List (List Nat),
      sortByOp (fun x : Nat => x) d = d ∧
      ¬ d.flatten.Pairwise (fun x y : Nat => x ≤ y)) := by
  have hnil : ([] : List A).mergeSort (fun x y => key x ≤ key y) = [] := by
    simp
  refine ⟨by simp [sortByOp], fun i => ?_, fun i => ?_, ?_⟩
  · rw [sortByOp, getD_map_nil _ hnil c i]
    exact List.mergeSort_perm _ _
  · rw [sortByOp, getD_map_nil _ hnil c i]
    have htrans : ∀ a b c : A,
        (decide (key a ≤ key b)) = true → (decide (key b ≤ key c)) = true →
        (decide (key a ≤ key c)) = true := by
      intro a b c hab hbc
      simp only [decide_eq_true_eq] at hab hbc ⊢
      exact le_trans hab hbc
    have htotal : ∀ a b : A,
        ((decide (key a ≤ key b)) || (decide (key b ≤ key a))) = true := by
      intro a b
      rcases le_total (key a) (key b) with h | h <;> simp [h]
    have hs := List.sorted_mergeSort htrans htotal (c.getD i [])
    exact hs.imp (fun h => of_decide_eq_true h)
  · refine ⟨[[1], [0]], by simp [sortByOp], by decide⟩

theorem sortBy_props_witness :
    (sortByOp (fun x : Nat => x) [[3, 1], [2]]).length =
      ([[3, 1], [2]] : List (List Nat)).length ∧
    (∀ i : Nat, ((sortByOp (fun x : Nat => x) [[3, 1], [2]]).getD i []).Perm
      (([[3, 1], [2]] : List (List Nat)).getD i [])) ∧
    (∀ i : Nat, ((sortByOp (fun x : Nat => x) [[3, 1], [2]]).getD i []).Pairwise
      (fun x y => x ≤ y)) ∧
    (∃ d : List (List Nat), sortByOp (fun x : Nat => x) d = d ∧
      ¬ d.flatten.Pairwise (fun x y : Nat => x ≤ y)) :=
  sortBy_props (fun x : Nat => x) [[3, 1], [2]]

/- ### Collection::fold_by — std::collections::HashMap modelled as an
association list with unique keys; keyed lookup is its observable content,
iteration order being unspecified in the source. -/

/-- HashMap::get on the association-list model. -/
def lookupKV {K : Type w} {B : Type v} [DecidableEq K] : List (K × B) → K → Option B
  | [], _ => none
  | (k1, b) :: rest, k => if k1 = k then some b else lookupKV rest k

/-- Writing through an occupied HashMap entry: replace the value at the key,
leaving every other entry alone. -/
def replaceKV {K : Type w} {B : Type v} [DecidableEq K] : List (K × B) → K → B → List (K × B)
  | [], _, _ => []
  | (k1, b1) :: rest, k, b =>
    if k1 = k then (k1, b) :: rest else (k1, b1) :: replaceKV rest k b

/-- One element of the fold_by stage-1 fold:
reducer.entry(key(v)).or_insert_with(default), then assigning binop(e, v). -/
def foldStep {A : Type u} {K : Type w} {B : Type v} [DecidableEq K]
    (key : A → K) (dflt : B) (binop : B → A → B)
    (acc : List (K × B)) (v : A) : List (K × B) :=
  match lookupKV acc (key v) with
  | some e => replaceKV acc (key v) (binop e v)
  | none => acc ++ [(key v, binop dflt v)]

/-- fold_by stage 1 on one partition: fold every element into the reducer. -/
def localFold {A : Type u} {K : Type w} {B : Type v} [DecidableEq K]
    (key : A → K) (dflt : B) (binop : B → A → B) (vs : List A) : List (K × B) :=
  vs.foldl (foldStep key dflt binop) []

/-- One entry of the fold_by block join:
nl.entry(k).and_modify(reduce(e, v)).or_insert(v). -/
def mergeStep {K : Type w} {B : Type v} [DecidableEq K] (red : B → B → B)
    (nl : List (K × B)) (kv : K × B) : List (K × B) :=
  match lookupKV nl kv.1 with
  | some e => replaceKV nl kv.1 (red e kv.2)
  | none => nl ++ [kv]

/-- fold_by block join: clone the left map, merge in every entry of the right. -/
def mergeMaps {K : Type w} {B : Type v} [DecidableEq K] (red : B → B → B)
    (left right : List (K × B)) : List (K × B) :=
  right.foldl (mergeStep red) left

/-- Collection::fold_by: local fold per partition, tree-reduce block join,
flatten into a single partition; the unwrap of the absent tree reduce on a
zero-partition Collection is modelled as None. -/
def foldByOp {A : Type u} {K : Type w} {B : Type v} [DecidableEq K]
    (key : A → K) (dflt : B) (binop : B → A → B) (red : B → B → B)
    (c : List (List A)) : Option (List (List (K × B))) :=
  (treeReduce (mergeMaps red) (c.map (localFold key dflt binop))).map (fun m => [m])

/-- Collection::frequencies: fold_by with identity key, zero default,
increment combine and sum reduce. -/
def frequenciesOp {A : Type u} [DecidableEq A] (c : List (List A)) :
    Option (List (List (A × Nat))) :=
  foldByOp (fun s => s) 0 (fun acc _ => acc + 1) (fun x y => x + y) c

/-- C10: fold_by, count and frequencies all tree-reduce and then unwrap, so on
a Collection with zero partitions each hits the unwrap of an absent value
(modelled as None, the panic) instead of producing an empty result; with at
least one partition the unwrap never fails. -/
theorem zero_partitions_unwrap {A : Type u} {K : Type w} {B : Type v}
    [DecidableEq K] [DecidableEq A]
    (key : A → K) (dflt : B) (binop : B → A → B) (red : B → B → B)
    (c : List (List A)) :
    (foldByOp key dflt binop red c = none ↔ c = []) ∧
    (countOp c = none ↔ c = []) ∧
    (frequenciesOp c = none ↔ c = []) := by
  refine ⟨?_, ?_, ?_⟩
  · rw [foldByOp]
    simp [treeReduce_none_iff, List.map_eq_nil_iff]
  · rw [countOp]
    simp [treeReduce_none_iff, List.map_eq_nil_iff]
  · rw [frequenciesOp, foldByOp]
    simp [treeReduce_none_iff, List.map_eq_nil_iff]

theorem lookupKV_none_iff {K : Type w} {B : Type v} [DecidableEq K] :
    ∀ (m : List (K × B)) (k : K), lookupKV m k = none ↔ k ∉ m.map Prod.fst
  | [], k => by simp [lookupKV]
  | (k1, b) :: rest, k => by
    by_cases h : k1 = k
    · simp [lookupKV, h]
    · simp [lookupKV, h, lookupKV_none_iff rest k, Ne.symm h]

theorem lookupKV_isSome_iff {K : Type w} {B : Type v} [DecidableEq K]
    (m : List (K × B)) (k : K) :
    (lookupKV m k).isSome = true ↔ k ∈ m.map Prod.fst := by
  rcases h : lookupKV m k with _ | b
  · simp only [Option.isSome_none, Bool.false_eq_true, false_iff]
    exact (lookupKV_none_iff m k).mp h
  · simp only [Option.isSome_some, true_iff]
    by_contra hk
    rw [(lookupKV_none_iff m k).mpr hk] at h
    exact absurd h (by simp)

theorem lookupKV_replace_self {K : Type w} {B : Type v} [DecidableEq K] :
    ∀ (m : List (K × B)) (k : K) (b e : B), lookupKV m k = some e →
      lookupKV (replaceKV m k b) k = some b
  | [], k, b, e => by simp [lookupKV]
  | (k1, b1) :: rest, k, b, e => by
    by_cases h : k1 = k
    · simp [lookupKV, replaceKV, h]
    · intro hl
      simp only [lookupKV, replaceKV, if_neg h] at hl ⊢
      exact lookupKV_replace_self rest k b e hl

theorem lookupKV_replace_ne {K : Type w} {B : Type v} [DecidableEq K] :
    ∀ (m : List (K × B)) (k k2 : K) (b : B), k2 ≠ k →
      lookupKV (replaceKV m k b) k2 = lookupKV m k2
  | [], _, _, _, _ => rfl
  | (k1, b1) :: rest, k, k2, b, hne => by
    have h3 : ¬k = k2 := fun hh => hne hh.symm
    by_cases h : k1 = k
    · simp [replaceKV, lookupKV, h, h3]
    · by_cases h2 : k1 = k2
      · simp [replaceKV, lookupKV, h, h2, hne]
      · simp [replaceKV, lookupKV, h, h2, lookupKV_replace_ne rest k k2 b hne]

theorem keys_replaceKV {K : Type w} {B : Type v} [DecidableEq K] :
    ∀ (m : List (K × B)) (k : K) (b : B),
      (replaceKV m k b).map Prod.fst = m.map Prod.fst
  | [], _, _ => rfl
  | (k1, b1) :: rest, k, b => by
    by_cases h : k1 = k
    · simp [replaceKV, h]
    · simp [replaceKV, h, keys_replaceKV rest k b]

theorem lookupKV_append {K : Type w} {B : Type v} [DecidableEq K] :
    ∀ (m l : List (K × B)) (k : K),
      lookupKV (m ++ l) k =
        (match lookupKV m k with | some b => some b | none => lookupKV l k)
  | [], l, k => by simp [lookupKV]
  | (k1, b1) :: rest, l, k => by
    by_cases h : k1 = k
    · simp [lookupKV, h]
    · simp [lookupKV, h, lookupKV_append rest l k]

/-- Merge of two optional aggregates: both present reduce, one present wins. -/
def mergeOpt {B : Type v} (red : B → B → B) : Option B → Option B → Option B
  | some a, some b => some (red a b)
  | some a, none => some a
  | none, ob => ob

theorem mergeOpt_none_right {B : Type v} (red : B → B → B) :
    ∀ a : Option B, mergeOpt red a none = a
  | some _ => rfl
  | none => rfl

theorem mergeOpt_assoc {B : Type v} {red : B → B → B}
    (hassoc : ∀ x y z : B, red (red x y) z = red x (red y z)) :
    ∀ a b c : Option B, mergeOpt red (mergeOpt red a b) c = mergeOpt red a (mergeOpt red b c) := by
  intro a b c
  cases a <;> cases b <;> cases c <;> simp [mergeOpt, hassoc]

theorem lookupKV_mergeStep {K : Type w} {B : Type v} [DecidableEq K] (red : B → B → B)
    (nl : List (K × B)) (kv : K × B) (k : K) :
    lookupKV (mergeStep red nl kv) k =
      if kv.1 = k then
        (match lookupKV nl k with | some e => some (red e kv.2) | none => some kv.2)
      else lookupKV nl k := by
  rcases kv with ⟨k1, v⟩
  simp only [mergeStep]
  rcases hl : lookupKV nl k1 with _ | e
  · rw [lookupKV_append]
    by_cases h : k1 = k
    · subst h
      rw [hl]
      simp [lookupKV]
    · rcases lookupKV nl k with _ | b <;> simp [lookupKV, h]
  · by_cases h : k1 = k
    · subst h
      rw [hl, lookupKV_replace_self nl k1 (red e v) e hl]
      simp
    · rw [lookupKV_replace_ne nl k1 k _ (fun hh => h (hh ▸ rfl))]
      simp [h]

theorem lookupKV_mergeMaps {K : Type w} {B : Type v} [DecidableEq K]
    (red : B → B → B) (k : K) :
    ∀ (right left : List (K × B)), (right.map Prod.fst).Nodup →
      lookupKV (mergeMaps red left right) k =
        mergeOpt red (lookupKV left k) (lookupKV right k)
  | [], left, _ => by
    show lookupKV left k = mergeOpt red (lookupKV left k) none
    rw [mergeOpt_none_right]
  | (k1, v) :: rest, left, hnd => by
    have hnd2 : (rest.map Prod.fst).Nodup := by
      simp only [List.map_cons, List.nodup_cons] at hnd
      exact hnd.2
    have hnotmem : k1 ∉ rest.map Prod.fst := by
      simp only [List.map_cons, List.nodup_cons] at hnd
      exact hnd.1
    show lookupKV (mergeMaps red (mergeStep red left (k1, v)) rest) k = _
    rw [lookupKV_mergeMaps red k rest (mergeStep red left (k1, v)) hnd2,
      lookupKV_mergeStep]
    by_cases h : k1 = k
    · subst h
      rw [(lookupKV_none_iff rest k1).mpr hnotmem, mergeOpt_none_right]
      show _ = mergeOpt red (lookupKV left k1) (lookupKV ((k1, v) :: rest) k1)
      rcases lookupKV left k1 with _ | e <;> simp [mergeOpt, lookupKV]
    · show mergeOpt red (if k1 = k then _ else lookupKV left k) (lookupKV rest k) =
        mergeOpt red (lookupKV left k) (lookupKV ((k1, v) :: rest) k)
      rw [if_neg h]
      simp [lookupKV, h]

theorem mergeStep_noDupKeys {K : Type w} {B : Type v} [DecidableEq K] (red : B → B → B)
    (nl : List (K × B)) (kv : K × B) (hnd : (nl.map Prod.fst).Nodup) :
    ((mergeStep red nl kv).map Prod.fst).Nodup := by
  rw [mergeStep]
  rcases hl : lookupKV nl kv.1 with _ | e
  · have hnm : kv.1 ∉ nl.map Prod.fst := (lookupKV_none_iff nl kv.1).mp hl
    simp [List.nodup_append, hnd, hnm]
  · rw [keys_replaceKV]
    exact hnd

theorem mergeMaps_noDupKeys {K : Type w} {B : Type v} [DecidableEq K] (red : B → B → B) :
    ∀ (right left : List (K × B)), (left.map Prod.fst).Nodup →
      ((mergeMaps red left right).map Prod.fst).Nodup
  | [], left, hnd => hnd
  | kv :: rest, left, hnd =>
    mergeMaps_noDupKeys red rest (mergeStep red left kv) (mergeStep_noDupKeys red left kv hnd)

theorem foldStep_noDupKeys {A : Type u} {K : Type w} {B : Type v} [DecidableEq K]
    (key : A → K) (dflt : B) (binop : B → A → B) (acc : List (K × B)) (v : A)
    (hnd : (acc.map Prod.fst).Nodup) :
    ((foldStep key dflt binop acc v).map Prod.fst).Nodup := by
  rw [foldStep]
  rcases hl : lookupKV acc (key v) with _ | e
  · have hnm : key v ∉ acc.map Prod.fst := (lookupKV_none_iff acc (key v)).mp hl
    simp [List.nodup_append, hnd, hnm]
  · rw [keys_replaceKV]
    exact hnd

theorem foldl_foldStep_noDupKeys {A : Type u} {K : Type w} {B : Type v} [DecidableEq K]
    (key : A → K) (dflt : B) (binop : B → A → B) :
    ∀ (vs : List A) (acc : List (K × B)), (acc.map Prod.fst).Nodup →
      (((vs.foldl (foldStep key dflt binop) acc)).map Prod.fst).Nodup
  | [], _, hnd => hnd
  | v :: rest, acc, hnd =>
    foldl_foldStep_noDupKeys key dflt binop rest (foldStep key dflt binop acc v)
      (foldStep_noDupKeys key dflt binop acc v hnd)

theorem localFold_noDupKeys {A : Type u} {K : Type w} {B : Type v} [DecidableEq K]
    (key : A → K) (dflt : B) (binop : B → A → B) (vs : List A) :
    ((localFold key dflt binop vs).map Prod.fst).Nodup :=
  foldl_foldStep_noDupKeys key dflt binop vs [] (by simp)

theorem lookupKV_foldStep {A : Type u} {K : Type w} {B : Type v} [DecidableEq K]
    (key : A → K) (dflt : B) (binop : B → A → B) (acc : List (K × B)) (v : A) (k : K) :
    lookupKV (foldStep key dflt binop acc v) k =
      if key v = k then some (binop ((lookupKV acc k).getD dflt) v)
      else lookupKV acc k := by
  rw [foldStep]
  rcases hl : lookupKV acc (key v) with _ | e
  · rw [lookupKV_append]
    by_cases h : key v = k
    · subst h
      rw [hl]
      simp [lookupKV]
    · rcases lookupKV acc k with _ | b <;> simp [lookupKV, h]
  · by_cases h : key v = k
    · subst h
      rw [hl, lookupKV_replace_self acc (key v) (binop e v) e hl]
      simp
    · rw [lookupKV_replace_ne acc (key v) k _ (fun hh => h (hh ▸ rfl))]
      simp [h]

/-- The combine-fold of a batch of same-key elements, absent for an empty
batch (matching a key that never occurs in the reducer map). -/
def optFold {A : Type u} {B : Type v} (dflt : B) (binop : B → A → B)
    (l : List A) : Option B :=
  match l with
  | [] => none
  | _ :: _ => some (l.foldl binop dflt)

theorem foldl_optStep_some {A : Type u} {B : Type v} (dflt : B) (binop : B → A → B) :
    ∀ (l : List A) (b : B),
      l.foldl (fun ob v => some (binop (ob.getD dflt) v)) (some b) = some (l.foldl binop b)
  | [], _ => rfl
  | v :: rest, b => by
    simp only [List.foldl_cons, Option.getD_some]
    exact foldl_optStep_some dflt binop rest (binop b v)

theorem foldl_optStep_none {A : Type u} {B : Type v} (dflt : B) (binop : B → A → B)
    (l : List A) :
    l.foldl (fun ob v => some (binop (ob.getD dflt) v)) none = optFold dflt binop l := by
  match l with
  | [] => rfl
  | v :: rest =>
    simp only [List.foldl_cons, Option.getD_none, optFold]
    exact foldl_optStep_some dflt binop rest (binop dflt v)

theorem lookupKV_foldl_foldStep {A : Type u} {K : Type w} {B : Type v} [DecidableEq K]
    (key : A → K) (dflt : B) (binop : B → A → B) (k : K) :
    ∀ (vs : List A) (acc : List (K × B)),
      lookupKV (vs.foldl (foldStep key dflt binop) acc) k =
        (vs.filter (fun v => decide (key v = k))).foldl
          (fun ob v => some (binop (ob.getD dflt) v)) (lookupKV acc k)
  | [], _ => rfl
  | v :: rest, acc => by
    simp only [List.foldl_cons, List.filter_cons]
    rw [lookupKV_foldl_foldStep key dflt binop k rest (foldStep key dflt binop acc v),
      lookupKV_foldStep]
    by_cases h : key v = k
    · simp [h]
    · simp [h]

/-- The observable content of fold_by stage 1: the aggregate stored at key k
is the combine-fold of exactly the elements with key k, in partition order. -/
theorem lookupKV_localFold {A : Type u} {K : Type w} {B : Type v} [DecidableEq K]
    (key : A → K) (dflt : B) (binop : B → A → B) (vs : List A) (k : K) :
    lookupKV (localFold key dflt binop vs) k =
      optFold dflt binop (vs.filter (fun v => decide (key v = k))) := by
  rw [localFold, lookupKV_foldl_foldStep]
  show List.foldl _ none _ = _
  rw [foldl_optStep_none]

theorem pairwisePass_hom {α : Type u} {β : Type v} (P : α → Prop)
    (f : α → α → α) (g : β → β → β) (h : α → β)
    (hP : ∀ x y, P x → P y → P (f x y))
    (hh : ∀ x y, P x → P y → h (f x y) = g (h x) (h y)) :
    ∀ l : List α, (∀ x ∈ l, P x) →
      ((pairwisePass f l).map h = pairwisePass g (l.map h) ∧
        ∀ x ∈ pairwisePass f l, P x)
  | [], _ => ⟨by simp [pairwisePass], by simp [pairwisePass]⟩
  | [x], hl => ⟨by simp [pairwisePass], by simpa [pairwisePass] using hl⟩
  | x :: y :: rest, hl => by
    have hx : P x := hl x (by simp)
    have hy : P y := hl y (by simp)
    have hrec := pairwisePass_hom P f g h hP hh rest (fun z hz => hl z (by simp [hz]))
    constructor
    · show h (f x y) :: (pairwisePass f rest).map h =
        pairwisePass g ((x :: y :: rest).map h)
      have hexp : pairwisePass g ((x :: y :: rest).map h) =
          g (h x) (h y) :: pairwisePass g (rest.map h) := by
        simp [pairwisePass]
      rw [hexp, hh x y hx hy, hrec.1]
    · intro z hz
      have hz2 : z = f x y ∨ z ∈ pairwisePass f rest := by
        simpa [pairwisePass] using hz
      rcases hz2 with hz3 | hz4
      · exact hz3 ▸ hP x y hx hy
      · exact hrec.2 z hz4

theorem treeReduceAux_hom {α : Type u} {β : Type v} (P : α → Prop)
    (f : α → α → α) (g : β → β → β) (h : α → β)
    (hP : ∀ x y, P x → P y → P (f x y))
    (hh : ∀ x y, P x → P y → h (f x y) = g (h x) (h y)) :
    ∀ (fuel : Nat) (l : List α), (∀ x ∈ l, P x) →
      (treeReduceAux f fuel l).map h = treeReduceAux g fuel (l.map h)
  | _, [], _ => by simp [treeReduceAux]
  | _, [x], _ => by simp [treeReduceAux]
  | 0, _ :: _ :: _, _ => by simp [treeReduceAux]
  | fuel + 1, x :: y :: rest, hl => by
    have hrec := pairwisePass_hom P f g h hP hh (x :: y :: rest) hl
    have hstep : treeReduceAux f (fuel + 1) (x :: y :: rest) =
        treeReduceAux f fuel (pairwisePass f (x :: y :: rest)) := rfl
    have hstep2 : treeReduceAux g (fuel + 1) (h x :: h y :: rest.map h) =
        treeReduceAux g fuel (pairwisePass g (h x :: h y :: rest.map h)) := rfl
    rw [List.map_cons, List.map_cons, hstep, hstep2,
      treeReduceAux_hom P f g h hP hh fuel _ hrec.2, hrec.1]
    simp

theorem mergeOpt_optFold {A : Type u} {B : Type v} (dflt : B) (binop : B → A → B)
    (red : B → B → B)
    (hmerge : ∀ xs ys : List A, xs ≠ [] → ys ≠ [] →
      red (xs.foldl binop dflt) (ys.foldl binop dflt) = (xs ++ ys).foldl binop dflt) :
    ∀ a b : List A, mergeOpt red (optFold dflt binop a) (optFold dflt binop b) =
      optFold dflt binop (a ++ b)
  | [], b => by cases b <;> rfl
  | x :: xs, [] => by simp [optFold, mergeOpt]
  | x :: xs, y :: ys => by
    show mergeOpt red (some ((x :: xs).foldl binop dflt)) (some ((y :: ys).foldl binop dflt)) =
      optFold dflt binop ((x :: xs) ++ (y :: ys))
    rw [show mergeOpt red (some ((x :: xs).foldl binop dflt)) (some ((y :: ys).foldl binop dflt)) =
        some (red ((x :: xs).foldl binop dflt) ((y :: ys).foldl binop dflt)) from rfl]
    rw [hmerge (x :: xs) (y :: ys) (by simp) (by simp)]
    rfl

theorem foldl_mergeOpt_optFold {A : Type u} {B : Type v} (dflt : B) (binop : B → A → B)
    (red : B → B → B)
    (hmerge : ∀ xs ys : List A, xs ≠ [] → ys ≠ [] →
      red (xs.foldl binop dflt) (ys.foldl binop dflt) = (xs ++ ys).foldl binop dflt) :
    ∀ (ls : List (List A)) (a : List A),
      (ls.map (optFold dflt binop)).foldl (mergeOpt red) (optFold dflt binop a) =
        optFold dflt binop (a ++ ls.flatten)
  | [], a => by simp
  | l :: rest, a => by
    simp only [List.map_cons, List.foldl_cons]
    rw [mergeOpt_optFold dflt binop red hmerge a l,
      foldl_mergeOpt_optFold dflt binop red hmerge rest (a ++ l)]
    simp

theorem optFold_isSome {A : Type u} {B : Type v} (dflt : B) (binop : B → A → B) :
    ∀ l : List A, l ≠ [] → (optFold dflt binop l).isSome = true
  | [], h => absurd rfl h
  | _ :: _, _ => rfl

/-- C5 (amended): on a Collection with at least one partition, fold_by with an
associative and commutative reduce that moreover merges partial combine-folds
(reduce of the combine-folds of two non-empty batches equals the combine-fold
of their concatenation) yields a single-partition Collection of key/aggregate
pairs whose key set is exactly the set of key() outputs over all elements, and
whose aggregate at each key is the combine-fold, from default, of all elements
with that key; the result depends only on the flattened element sequence, not
on how it was split into partitions. -/
theorem foldBy_props {A : Type u} {K : Type w} {B : Type v} [DecidableEq K]
    (key : A → K) (dflt : B) (binop : B → A → B) (red : B → B → B)
    (c : List (List A)) (hc : c ≠ [])
    (hassoc : ∀ x y z : B, red (red x y) z = red x (red y z))
    (hcomm : ∀ x y : B, red x y = red y x)
    (hmerge : ∀ xs ys : List A, xs ≠ [] → ys ≠ [] →
      red (xs.foldl binop dflt) (ys.foldl binop dflt) = (xs ++ ys).foldl binop dflt) :
    ∃ m : List (K × B),
      foldByOp key dflt binop red c = some [m] ∧
      (∀ k : K, k ∈ m.map Prod.fst ↔ k ∈ c.flatten.map key) ∧
      (∀ k : K, lookupKV m k =
        optFold dflt binop (c.flatten.filter (fun v => decide (key v = k)))) := by
  rcases c with _ | ⟨p, crest⟩
  · exact absurd rfl hc
  set c : List (List A) := p :: crest with hcdef
  have hne : c.map (localFold key dflt binop) ≠ [] := by simp [hcdef]
  obtain ⟨m, hm⟩ : ∃ m,
      treeReduce (mergeMaps red) (c.map (localFold key dflt binop)) = some m := by
    rcases h : treeReduce (mergeMaps red) (c.map (localFold key dflt binop)) with _ | m
    · exact absurd ((treeReduce_none_iff _ _).mp h) hne
    · exact ⟨m, rfl⟩
  have hlook : ∀ k : K, lookupKV m k =
      optFold dflt binop (c.flatten.filter (fun v => decide (key v = k))) := by
    intro k
    have hhom := treeReduceAux_hom (fun x : List (K × B) => (x.map Prod.fst).Nodup)
      (mergeMaps red) (mergeOpt red) (fun x => lookupKV x k)
      (fun x y hx _ => mergeMaps_noDupKeys red y x hx)
      (fun x y _ hy => lookupKV_mergeMaps red k y x hy)
      (c.map (localFold key dflt binop)).length
      (c.map (localFold key dflt binop))
      (by
        intro x hx
        rcases List.mem_map.mp hx with ⟨vs, _, hvs⟩
        exact hvs ▸ localFold_noDupKeys key dflt binop vs)
    have e1 : (treeReduce (mergeMaps red) (c.map (localFold key dflt binop))).map
        (fun x => lookupKV x k) =
        treeReduce (mergeOpt red)
          ((c.map (localFold key dflt binop)).map (fun x => lookupKV x k)) := by
      rw [treeReduce, treeReduce,
        List.length_map (c.map (localFold key dflt binop)) (fun x => lookupKV x k)]
      exact hhom
    rw [hm] at e1
    have e2 : (c.map (localFold key dflt binop)).map (fun x => lookupKV x k) =
        (c.map (fun vs => vs.filter (fun v => decide (key v = k)))).map
          (optFold dflt binop) := by
      rw [List.map_map, List.map_map]
      exact List.map_congr_left (fun vs _ => lookupKV_localFold key dflt binop vs k)
    rw [e2, hcdef, List.map_cons, List.map_cons,
      treeReduce_cons (mergeOpt_assoc hassoc),
      foldl_mergeOpt_optFold dflt binop red hmerge] at e1
    have e3 : p.filter (fun v => decide (key v = k)) ++
        ((crest.map (fun vs => vs.filter (fun v => decide (key v = k)))).flatten) =
        (p :: crest).flatten.filter (fun v => decide (key v = k)) := by
      rw [← List.flatten_cons, ← List.map_cons, flatten_map_filter]
    rw [e3] at e1
    exact Option.some.inj e1
  have hkeys : ∀ k : K, k ∈ m.map Prod.fst ↔ k ∈ c.flatten.map key := by
    intro k
    rw [← lookupKV_isSome_iff, hlook k]
    constructor
    · intro hs
      by_cases hfe : c.flatten.filter (fun v => decide (key v = k)) = []
      · rw [hfe] at hs
        exact absurd hs (by simp [optFold])
      · rcases List.exists_mem_of_ne_nil _ hfe with ⟨v, hv⟩
        have hv2 := List.mem_filter.mp hv
        exact List.mem_map.mpr ⟨v, hv2.1, by simpa using hv2.2⟩
    · intro hk
      rcases List.mem_map.mp hk with ⟨v, hv, hkv⟩
      exact optFold_isSome dflt binop _
        (List.ne_nil_of_mem (List.mem_filter.mpr ⟨hv, by simpa using hkv⟩))
  refine ⟨m, ?_, hkeys, hlook⟩
  rw [foldByOp, hm]
  rfl

theorem foldBy_props_witness :
    (([[1, 2], [3, 4]] : List (List Nat)) ≠ []) ∧
    (∃ m : List (Nat × Nat),
      foldByOp (fun v => v % 2) 0 (fun b a => b + a) (fun x y => x + y)
        ([[1, 2], [3, 4]] : List (List Nat)) = some [m] ∧
      (∀ k : Nat, k ∈ m.map Prod.fst ↔
        k ∈ ([[1, 2], [3, 4]] : List (List Nat)).flatten.map (fun v => v % 2)) ∧
      (∀ k : Nat, lookupKV m k =
        optFold 0 (fun b a => b + a)
          (([[1, 2], [3, 4]] : List (List Nat)).flatten.filter
            (fun v => decide (v % 2 = k))))) :=
  ⟨by decide,
    foldBy_props (fun v => v % 2) 0 (fun b a => b + a) (fun x y => x + y)
      [[1, 2], [3, 4]] (by decide)
      (fun x y z => Nat.add_assoc x y z)
      (fun x y => Nat.add_comm x y)
      (fun xs ys _ _ => by
        simp only [foldl_add_eq_sum, List.sum_append]
        omega)⟩

/-- C5 counterexample: two partitions each holding one element of key 0, with
combine counting elements (so the fold of combine over both elements is 2) and
the associative, commutative reduce multiplying: fold_by returns aggregate 1
for key 0, not the fold of combine; and the same elements in a single
partition yield aggregate 2, so the result also depends on the partitioning —
refuting the claim for arbitrary associative-and-commutative reduce. -/
theorem foldBy_claim_counterexample :
    (∀ x y z : Nat, (x * y) * z = x * (y * z)) ∧
    (∀ x y : Nat, x * y = y * x) ∧
    foldByOp (fun _ : Nat => (0 : Nat)) 0 (fun b _ => b + 1) (fun x y => x * y)
      [[1], [1]] = some [[(0, 1)]] ∧
    foldByOp (fun _ : Nat => (0 : Nat)) 0 (fun b _ => b + 1) (fun x y => x * y)
      [[1, 1]] = some [[(0, 2)]] ∧
    (([[1], [1]] : List (List Nat)).flatten.filter
      (fun v => decide ((fun _ : Nat => (0 : Nat)) v = 0))).foldl (fun b _ => b + 1) 0 = 2 ∧
    (1 : Nat) ≠ 2 :=
  ⟨fun x y z => Nat.mul_assoc x y z, fun x y => Nat.mul_comm x y,
    by decide, by decide, by decide, by decide⟩

/- ### Storage backend (tange-collection/src/interfaces.rs), disk variant.
The file system is modelled as an explicit map from file names to written
blobs, and the bincode codec as an opaque serialize/deserialize pair assumed
mutually inverse where the claim assumes it. -/

/-- DiskBuffer: the in-memory write session of the disk backend. -/
structure DiskBuffer (A : Type u) where
  root_path : String
  buffer : List A

/-- FileStore: a handle to a possibly never-written serialized partition. -/
structure FileStore (A : Type u) where
  root_path : String
  name : Option String

/-- FileStore::empty: a handle with no backing file. -/
def FileStore.empty (A : Type u) (path : String) : FileStore A :=
  { root_path := path, name := none }

/-- Accumulator::writer for Disk: a fresh empty buffer under the root path. -/
def diskWriter (A : Type u) (root : String) : DiskBuffer A :=
  { root_path := root, buffer := [] }

/-- ValueWriter::add for DiskBuffer: push the item onto the buffer. -/
def DiskBuffer.add {A : Type u} (b : DiskBuffer A) (item : A) : DiskBuffer A :=
  { b with buffer := b.buffer ++ [item] }

/-- ValueWriter::finish for DiskBuffer: serialize the whole buffer into a
freshly named file under the root path and return a handle carrying that
file name; the updated file system is returned alongside. -/
def DiskBuffer.finish {A : Type u} {Blob : Type v} (ser : List A → Blob)
    (b : DiskBuffer A) (uuid : String) (fs : String → Option Blob) :
    (String → Option Blob) × FileStore A :=
  let name := b.root_path ++ "/tange-" ++ uuid
  (fun s => if s = name then some (ser b.buffer) else fs s,
    { root_path := b.root_path, name := some name })

/-- Stream::stream for FileStore: deserialize the whole backing file, or the
empty sequence when no file was ever written; a missing or undecodable file
aborts (None). -/
def FileStore.stream {A : Type u} {Blob : Type v} (deser : Blob → Option (List A))
    (fs : String → Option Blob) (st : FileStore A) : Option (List A) :=
  match st.name with
  | some n =>
    match fs n with
    | some blob => deser blob
    | none => none
  | none => some []

theorem addAll_eq {A : Type u} :
    ∀ (l : List A) (root : String) (init : List A),
      l.foldl DiskBuffer.add { root_path := root, buffer := init } =
        { root_path := root, buffer := init ++ l }
  | [], root, init => by rw [List.foldl_nil, List.append_nil]
  | x :: rest, root, init => by
    simp only [List.foldl_cons]
    rw [show ({ root_path := root, buffer := init } : DiskBuffer A).add x =
        { root_path := root, buffer := init ++ [x] } from rfl,
      addAll_eq rest root (init ++ [x])]
    simp

/-- C8: obtaining a disk writer, adding elements in order, finishing, then
streaming the produced FileStore reproduces exactly the written sequence
(assuming deserialize inverts serialize on it and the write succeeded), and a
FileStore built without ever going through a writer (FileStore::empty, no
file name) streams as the empty sequence rather than failing. -/
theorem disk_roundtrip {A : Type u} {Blob : Type v} (ser : List A → Blob)
    (deser : Blob → Option (List A)) (l : List A) (root uuid : String)
    (fs0 : String → Option Blob)
    (hinv : deser (ser l) = some l) :
    (FileStore.stream deser
        (DiskBuffer.finish ser (l.foldl DiskBuffer.add (diskWriter A root)) uuid fs0).1
        (DiskBuffer.finish ser (l.foldl DiskBuffer.add (diskWriter A root)) uuid fs0).2 =
      some l) ∧
    FileStore.stream deser fs0 (FileStore.empty A root) = some [] := by
  refine ⟨?_, rfl⟩
  rw [show diskWriter A root = ({ root_path := root, buffer := [] } : DiskBuffer A) from rfl,
    addAll_eq l root [], List.nil_append]
  simp [DiskBuffer.finish, FileStore.stream, hinv]

theorem disk_roundtrip_witness :
    (some ([1, 2] : List Nat) = some [1, 2]) ∧
    ((FileStore.stream some
        (DiskBuffer.finish (fun x : List Nat => x)
          (([1, 2] : List Nat).foldl DiskBuffer.add (diskWriter Nat "root")) "id"
          (fun _ => none)).1
        (DiskBuffer.finish (fun x : List Nat => x)
          (([1, 2] : List Nat).foldl DiskBuffer.add (diskWriter Nat "root")) "id"
          (fun _ => none)).2 = some [1, 2]) ∧
      FileStore.stream some (fun _ => (none : Option (List Nat)))
        (FileStore.empty Nat "root") = some []) :=
  ⟨rfl, disk_roundtrip (fun x => x) some [1, 2] "root" "id" (fun _ => none) rfl⟩

end TangeSpec
